import Mathlib

/-
Verification of the scrap-articles repository core (scraper, preprocessor,
postprocessor, summarization gateway) via a shallow embedding in Lean.

Strings are modelled as lists of characters (`String.data`); Python regular
expressions are embedded as recursive functions with the exact scanning
semantics (leftmost match, greedy or non-greedy as in the source pattern).
Unicode-sensitive Python classes (`\w`, `str.lower`, `str.strip`) are
modelled at the ASCII level, which is faithful on all inputs the claims
quantify over and on every concrete witness below.
-/

namespace ScrapArticles

/-! ## Character classes (ASCII models of Python's `\s`, `[A-Z]`, `\w`) -/

/-- Python regex `\s` for ASCII: space, tab, newline, carriage return,
vertical tab, form feed. -/
def isPySpace (c : Char) : Bool :=
  c == ' ' || c == '\t' || c == '\n' || c == '\r' || c == '\x0b' || c == '\x0c'

/-- Sentence-ending punctuation `[.!?]` used by the postprocessor regexes. -/
def isSentEnd (c : Char) : Bool :=
  c == '.' || c == '!' || c == '?'

/-- Regex class `[A-Z]`. -/
def isUpperAscii (c : Char) : Bool :=
  65 ≤ c.toNat && c.toNat ≤ 90

/-- ASCII model of Python `str.lower` applied to one character. -/
def toLowerAscii (c : Char) : Char :=
  if h : 65 ≤ c.toNat ∧ c.toNat ≤ 90 then
    Char.ofNatAux (c.toNat + 32) (Or.inl (by omega))
  else c

/-- ASCII model of regex `\w`: letters, digits, underscore. -/
def isWordChar (c : Char) : Bool :=
  c.isAlpha || c.isDigit || c == '_'

/-- Python `str.lower` over a character list. -/
def lowerStr (l : List Char) : List Char :=
  l.map toLowerAscii

/-- Python `str.strip()`: drop leading and trailing whitespace. -/
def pyStrip (l : List Char) : List Char :=
  ((l.dropWhile isPySpace).reverse.dropWhile isPySpace).reverse

/-- Python `str.strip()` on `String`. -/
def pyStripS (s : String) : String :=
  ⟨pyStrip s.data⟩

/-- Substring test: does `pat` occur contiguously inside `l`? -/
def listContainsSub (pat : List Char) : List Char → Bool
  | [] => pat.isEmpty
  | c :: cs => pat.isPrefixOf (c :: cs) || listContainsSub pat cs

/-- Python `pat in s` on strings. -/
def strContains (s pat : String) : Bool :=
  listContainsSub pat.data s.data

/-- Index of the first position of `l` at which `pat` starts, if any. -/
def findPat (pat : List Char) : List Char → Option Nat
  | [] => if pat.isEmpty then some 0 else none
  | c :: cs =>
    if pat.isPrefixOf (c :: cs) then some 0
    else
      match findPat pat cs with
      | some n => some (n + 1)
      | none => none

/-- Length of the leading whitespace run (used to embed greedy `\s+`). -/
def wsRunLen : List Char → Nat
  | [] => 0
  | c :: cs => if isPySpace c then wsRunLen cs + 1 else 0

/-- Length of the leading digit run (used to embed greedy `\d+`). -/
def digitRunLen : List Char → Nat
  | [] => 0
  | c :: cs => if c.isDigit then digitRunLen cs + 1 else 0

/-- Embedding of `re.sub(r'\s+', ' ', s)`: every maximal whitespace run
becomes a single space. -/
def collapseWs : List Char → List Char
  | [] => []
  | c :: cs =>
    let rest := collapseWs cs
    if isPySpace c then
      if rest.head? == some ' ' then rest else ' ' :: rest
    else c :: rest

/-- Python `' '.join(words)`. -/
def joinWords : List (List Char) → List Char
  | [] => []
  | [w] => w
  | w :: ws => w ++ ' ' :: joinWords ws

/-! ## Preprocessor (`app/processing/preprocessor.py`) -/

/-- Embedding of `re.sub(r'<[^>]+>', '', text)`: at each `<`, the match runs
to the first following `>` provided at least one character lies between. -/
def removeTags : List Char → List Char
  | [] => []
  | c :: cs =>
    if c == '<' then
      match findPat ['>'] cs with
      | some 0 => c :: removeTags cs
      | some (i + 1) => removeTags (cs.drop (i + 2))
      | none => c :: removeTags cs
    else c :: removeTags cs
termination_by l => l.length
decreasing_by all_goals first | (simp [List.length_drop]; omega) | simp

/-- Character class of the URL regex
`http[s]?://(?:[a-zA-Z]|[0-9]|[$-_@.&+]|[!*\\(\\),]|(?:%[0-9a-fA-F][0-9a-fA-F]))+`.
The class `[$-_@.&+]` is the ASCII range `$`..`_` (which already contains
`@ . & + %`), so one repetition matches a letter, a digit, a character in
that range, or one of `! * \ ( ) ,`. -/
def isUrlChar (c : Char) : Bool :=
  c.isAlpha || c.isDigit || (36 ≤ c.toNat && c.toNat ≤ 95) ||
  c == '!' || c == '*' || c == '\\' || c == '(' || c == ')' || c == ','

/-- Does the URL regex match at the head of `l`? Returns the number of
characters consumed (scheme plus a nonempty greedy run of URL characters). -/
def matchUrlAt (l : List Char) : Option Nat :=
  if ("http".data).isPrefixOf l then
    let k : Option Nat :=
      if ("s://".data).isPrefixOf (l.drop 4) then some 8
      else if ("://".data).isPrefixOf (l.drop 4) then some 7
      else none
    match k with
    | some k =>
      let body := (l.drop k).takeWhile isUrlChar
      if body.isEmpty then none else some (k + body.length)
    | none => none
  else none

/-- Embedding of the URL removal `re.sub(urlPattern, '', text)`. -/
def removeUrls : List Char → List Char
  | [] => []
  | c :: cs =>
    match matchUrlAt (c :: cs) with
    | some k => removeUrls (cs.drop (k - 1))
    | none => c :: removeUrls cs
termination_by l => l.length
decreasing_by all_goals first | (simp [List.length_drop]; omega) | simp

/-- A maximal non-whitespace token matches `\S+@\S+` exactly when it has an
`@` that is neither its first nor its last character. -/
def hasInternalAt (tok : List Char) : Bool :=
  match tok with
  | [] => false
  | _ :: rest => rest.dropLast.contains '@'

/-- Worker for the email removal: builds the current token in reverse and
deletes it when it matches `\S+@\S+`. -/
def removeEmailsAux (tokRev : List Char) : List Char → List Char
  | [] => if hasInternalAt tokRev.reverse then [] else tokRev.reverse
  | c :: cs =>
    if isPySpace c then
      (if hasInternalAt tokRev.reverse then [] else tokRev.reverse) ++
        c :: removeEmailsAux [] cs
    else removeEmailsAux (c :: tokRev) cs

/-- Embedding of `re.sub(r'\S+@\S+', '', text)`. -/
def removeEmails (l : List Char) : List Char :=
  removeEmailsAux [] l

/-- Whitelist of `re.sub(r'[^\w\s.,!?;:\-\'"()]', '', text)`: characters kept
by the punctuation filter. -/
def keepChar (c : Char) : Bool :=
  isWordChar c || isPySpace c ||
  c == '.' || c == ',' || c == '!' || c == '?' || c == ';' || c == ':' ||
  c == '-' || c == '\'' || c == '"' || c == '(' || c == ')'

/-- The fixed stopword set of the preprocessor (listed as in the source). -/
def STOPWORDS : List String :=
  ["a", "an", "and", "are", "as", "at", "be", "by", "for", "from",
   "has", "he", "in", "is", "it", "its", "of", "on", "that", "the",
   "to", "was", "will", "with", "this", "but", "they", "have", "had",
   "what", "said", "each", "which", "their", "time", "if", "up", "out",
   "many", "then", "them", "these", "so", "some", "her", "would",
   "make", "like", "into", "him", "two", "more", "go", "no",
   "way", "could", "my", "than", "first", "been", "call", "who",
   "oil", "now", "find", "long", "down", "day", "did", "get",
   "come", "made", "may", "part"]

/-- Python `str.split()`: maximal non-whitespace tokens, no empties. -/
def pySplitAux (tokRev : List Char) : List Char → List (List Char)
  | [] => if tokRev.isEmpty then [] else [tokRev.reverse]
  | c :: cs =>
    if isPySpace c then
      if tokRev.isEmpty then pySplitAux [] cs
      else tokRev.reverse :: pySplitAux [] cs
    else pySplitAux (c :: tokRev) cs

/-- Python `str.split()` over a character list. -/
def pySplitWs (l : List Char) : List (List Char) :=
  pySplitAux [] l

/-- The optional stopword stage of `preprocess_text`: split on whitespace,
drop words whose (re-)lowercased form is a stopword, rejoin with spaces. -/
def stopwordStage (remove_stopwords : Bool) (t : List Char) : List Char :=
  if remove_stopwords then
    joinWords ((pySplitWs t).filter
      (fun w => !(STOPWORDS.contains (String.mk (lowerStr w)))))
  else t

/-- Embedding of `preprocess_text` from `app/processing/preprocessor.py`:
remove HTML tags, URLs and emails, collapse whitespace, filter to the
punctuation whitelist, lowercase, optionally drop stopwords, then collapse
and strip. The `try/except` wrapper is dead in this pure model. -/
def preprocess_text (text : String) (remove_stopwords : Bool := false) : String :=
  if text.isEmpty then "" else
    ⟨pyStrip (collapseWs (stopwordStage remove_stopwords
      (lowerStr (List.filter keepChar
        (collapseWs (removeEmails (removeUrls (removeTags text.data))))))))⟩

/-! ## Postprocessor (`app/processing/postprocessor.py`) -/

/-- Embedding of `re.sub(d + r'(.*?)' + d, r'\1', s)` for a literal delimiter
`d` (`**`, `*` or a backtick): leftmost match, non-greedy inner part, which
cannot cross a newline because `.` does not match `\n`; on a match the scan
resumes after the closing delimiter. -/
def stripDelims (d : List Char) (s : List Char) : List Char :=
  match s with
  | [] => []
  | c :: cs =>
    if d.isEmpty then c :: stripDelims d cs
    else if d.isPrefixOf (c :: cs) then
      let rest := cs.drop (d.length - 1)
      match findPat d rest with
      | some i =>
        let inner := rest.take i
        if inner.contains '\n' then c :: stripDelims d cs
        else inner ++ stripDelims d (cs.drop (d.length - 1 + i + d.length))
      | none => c :: stripDelims d cs
    else c :: stripDelims d cs
termination_by s.length
decreasing_by all_goals first | (simp [List.length_drop]; omega) | simp

/-- The character class of the bullet regex as it appears (mojibake and all)
in the source: `^[-â€¢*]\s+`. The middle three characters are the UTF-8
bytes of a bullet read back in a single-byte encoding, so the class contains
`-`, `â` (U+00E2), `€` (U+20AC), `¢` (U+00A2) and `*`, but not `•`. -/
def bulletChars : List Char :=
  ['-', 'â', '€', '¢', '*']

/-- Embedding of `re.sub(r'^[-â€¢*]\s+', '', s, flags=re.MULTILINE)`.
`atStart` records whether the scan position is a line start (string start or
preceded by a newline); a match consumes the marker and the greedy
whitespace run, and the next position is a line start only when the last
consumed whitespace character was a newline. -/
def subBullet (atStart : Bool) (l : List Char) : List Char :=
  match l with
  | [] => []
  | c :: cs =>
    if atStart && bulletChars.contains c && (cs.head?.any isPySpace) then
      let k := wsRunLen cs
      subBullet ((cs.take k).getLast?.any (· == '\n')) (cs.drop k)
    else c :: subBullet (c == '\n') cs
termination_by l.length
decreasing_by all_goals first | (simp [List.length_drop]; omega) | simp

/-- Embedding of `re.sub(r'^\d+\.\s+', '', s, flags=re.MULTILINE)`: at a line
start, a greedy digit run followed by a literal dot and a greedy whitespace
run is removed. -/
def subNum (atStart : Bool) (l : List Char) : List Char :=
  match l with
  | [] => []
  | c :: cs =>
    if atStart && c.isDigit then
      let d := digitRunLen cs
      if ((cs.drop d).head?.any (· == '.')) &&
          ((cs.drop (d + 1)).head?.any isPySpace) then
        let k := wsRunLen (cs.drop (d + 1))
        subNum (((cs.drop (d + 1)).take k).getLast?.any (· == '\n'))
          (cs.drop (d + 1 + k))
      else c :: subNum false cs
    else c :: subNum (c == '\n') cs
termination_by l.length
decreasing_by all_goals first | (simp [List.length_drop]; omega) | simp

/-- Embedding of `re.split(r'(?<=[.!?])\s+(?=[A-Z])', text)`: a separator is
a maximal whitespace run whose preceding character is sentence-ending
punctuation and whose following character is an uppercase letter (consumed
whitespace, uppercase left in place). `fragRev` is the current fragment in
reverse; its head is the character just before the scan position. -/
def ssAux (fragRev : List Char) (rest : List Char) : List (List Char) :=
  match rest with
  | [] => [fragRev.reverse]
  | c :: cs =>
    if isPySpace c && fragRev.head?.any isSentEnd &&
        ((cs.drop (wsRunLen cs)).head?.any isUpperAscii) then
      fragRev.reverse :: ssAux [] (cs.drop (wsRunLen cs))
    else ssAux (c :: fragRev) cs
termination_by rest.length
decreasing_by all_goals first | (simp [List.length_drop]; omega) | simp

/-- The raw fragment list produced by the sentence-splitting regex. -/
def splitRaw (l : List Char) : List (List Char) :=
  ssAux [] l

/-- Embedding of `split_sentences`: regex split, then keep each stripped
fragment whose length exceeds 5. -/
def split_sentences (text : String) : List String :=
  (((splitRaw text.data).map pyStrip).filter (fun s => 5 < s.length)).map
    String.mk

/-- Embedding of `postprocess_summary`: collapse whitespace and strip, remove
bold, italic and backtick markdown pairs, strip line-leading bullet and
numbered-list markers, split into sentences, keep the first `max_sentences`,
join with spaces, strip, and append a final period when missing. The
`try/except` wrapper is dead in this pure model. -/
def postprocess_summary (summary : String) (max_sentences : Nat := 5) : String :=
  if summary.isEmpty then "" else
    let s := pyStrip (collapseWs summary.data)
    let s := stripDelims ['*', '*'] s
    let s := stripDelims ['*'] s
    let s := stripDelims ['\x60'] s
    let s := subBullet true s
    let s := subNum true s
    let sentences := (((splitRaw s).map pyStrip).filter (fun t => 5 < t.length))
    let sentences := sentences.take max_sentences
    let ps := pyStrip (joinWords sentences)
    if !ps.isEmpty && !(ps.getLast?.any (· == '.')) then ⟨ps ++ ['.']⟩ else ⟨ps⟩

/-- Python `str.rfind` for a single character: index of the last occurrence,
`-1` when absent. -/
def rfindChar (l : List Char) (c : Char) : Int :=
  match l with
  | [] => -1
  | x :: xs =>
    let r := rfindChar xs c
    if 0 ≤ r then r + 1 else if x == c then 0 else -1

/-- Number of binary digits of `N` (valid for `N < 2^128`, far beyond any
value arising here). -/
def bitLen (N : Nat) : Nat :=
  ((List.range 128).filter (fun k => 2 ^ k ≤ N)).length

/-- Round a natural number to 53 significant bits, to nearest, ties to even
(the significand rounding step of IEEE-754 binary64). -/
def roundMantissa (N : Nat) : Nat :=
  if N < 2 ^ 53 then N
  else
    let sh := bitLen N - 53
    let q := N / 2 ^ sh
    let r := N % 2 ^ sh
    (if 2 * r > 2 ^ sh ∨ (2 * r = 2 ^ sh ∧ q % 2 = 1) then q + 1 else q) * 2 ^ sh

/-- The IEEE-754 binary64 product `float(m) * 0.7`, scaled by `2^52`: the
double nearest `0.7` is `3152519739159347 / 2^52`, so the product before
rounding is `(m * 3152519739159347) / 2^52` and the double equals
`float07timesNum m / 2^52` exactly. Faithful to Python for `m < 2^53`
(where `float(m)` is exact); no overflow or subnormals arise there. -/
def float07timesNum (m : Nat) : Nat :=
  roundMantissa (m * 3152519739159347)

/-- Embedding of `limit_length`: texts that fit are returned unchanged;
otherwise the rightmost `.`/`!`/`?` inside the first `max_chars` characters
is located and, when its index exceeds the IEEE-754 double `max_chars * 0.7`
(Python compares the integer index against that float exactly; both sides
are scaled by `2^52` here to keep the comparison integral), the text is cut
just after it, else the first `max_chars` characters plus `'...'` are
returned. The float threshold can fall just below the exact `0.7 *
max_chars` (first at `max_chars = 90`, where it is `63 - 2^-47`), so an
index at exactly 70 percent can take the sentence-cut branch. -/
def limit_length (text : String) (max_chars : Nat := 500) : String :=
  if text.length ≤ max_chars then text
  else
    let truncated := text.data.take max_chars
    let lastEnd : Int :=
      max (max (rfindChar truncated '.') (rfindChar truncated '!'))
        (rfindChar truncated '?')
    if (float07timesNum max_chars : Int) < lastEnd * 2 ^ 52 then
      ⟨text.data.take (lastEnd.toNat + 1)⟩
    else ⟨truncated ++ ['.', '.', '.']⟩

/-! ## Scraper (`app/scrapping/scraper.py`)

The fetched and parsed page is modelled as a tree of elements and text
nodes; fetching itself is an external collaborator, so every scraping
function takes the parsed document as an argument. -/

/-- A parsed HTML node: an element with a tag name, attributes and children,
or a text node. The document root is a synthetic element whose children are
the page's top-level nodes. -/
inductive Node where
  | elem (tag : String) (attrs : List (String × String)) (children : List Node)
  | text (s : String)

/-- Attribute lookup (first binding wins, as in a parsed tag). -/
def attrOf : List (String × String) → String → Option String
  | [], _ => none
  | (k, v) :: rest, key => if k == key then some v else attrOf rest key

/-- The value of an attribute of an element node. -/
def Node.attr : Node → String → Option String
  | .elem _ attrs _, key => attrOf attrs key
  | .text _, _ => none

/-- Is this an element with the given tag name? -/
def Node.isNamed : Node → String → Bool
  | .elem tag _ _, t => tag == t
  | .text _, _ => false

/-- BeautifulSoup `class_='c'` string filter: `c` is one of the
whitespace-separated classes of the element. -/
def Node.hasClass (n : Node) (c : String) : Bool :=
  match n.attr "class" with
  | some v => (pySplitWs v.data).contains c.data
  | none => false

/-- The lambda class filter of the generic strategy,
`lambda x: x and s in x.lower()`: the class attribute exists and contains
the substring `s` after lowercasing. -/
def Node.classContains (n : Node) (s : String) : Bool :=
  match n.attr "class" with
  | some v => listContainsSub s.data (lowerStr v.data)
  | none => false

mutual
/-- All descendants of a node satisfying `p`, in document order, excluding
the node itself (BeautifulSoup `find_all`). -/
def findAllNode (p : Node → Bool) : Node → List Node
  | .text _ => []
  | .elem _ _ cs => findAllList p cs

/-- `find_all` over a sibling list: each matching node precedes its own
matching descendants, which precede later siblings. -/
def findAllList (p : Node → Bool) : List Node → List Node
  | [] => []
  | n :: ns => (if p n then [n] else []) ++ findAllNode p n ++ findAllList p ns
end

/-- BeautifulSoup `find`: first matching descendant. -/
def findNode (p : Node → Bool) (n : Node) : Option Node :=
  (findAllNode p n).head?

mutual
/-- Text of a descendant node, skipping (sub)elements whose tag is in `bad`
(they have been `extract()`-ed). -/
def textSkip (bad : List String) : Node → List Char
  | .text s => s.data
  | .elem tag _ cs => if bad.contains tag then [] else textSkipList bad cs

/-- Worker of `textSkip` over a sibling list. -/
def textSkipList (bad : List String) : List Node → List Char
  | [] => []
  | n :: ns => textSkip bad n ++ textSkipList bad ns
end

/-- BeautifulSoup `get_text()` on a node after `extract()`-ing every
descendant whose tag is listed in `bad`: the node's own tag is not checked,
since `find_all` only removes descendants. -/
def Node.textContent (bad : List String) : Node → List Char
  | .text s => s.data
  | .elem _ _ cs => textSkipList bad cs

/-- BeautifulSoup `get_text()`: concatenation of all text nodes below. -/
def Node.getText (n : Node) : List Char :=
  Node.textContent [] n

/-- One extracted record (the dicts built by the scraper). -/
structure Article where
  title : String
  author : String
  content : String
  source_url : String
deriving Repr, DecidableEq

/-- Python `', '.join(tags)`. -/
def joinCommaSp : List (List Char) → List Char
  | [] => []
  | [w] => w
  | w :: ws => w ++ ',' :: ' ' :: joinCommaSp ws

/-- `x.get_text()` where `x` may be `None`: Python raises `AttributeError`
when `find` returned nothing. -/
def getTextOrThrow : Option Node → Except String (List Char)
  | some n => .ok n.getText
  | none => .error "AttributeError"

/-- Effectful map over a list in the `Except` monad, mirroring a Python loop
whose body may raise: the first raise aborts the whole loop. -/
def exceptMapList (f : α → Except ε β) : List α → Except ε (List β)
  | [] => .ok []
  | x :: xs =>
    match f x with
    | .error e => .error e
    | .ok y =>
      match exceptMapList f xs with
      | .error e => .error e
      | .ok ys => .ok (y :: ys)

/-- The body of the quote loop in `_scrape_quotes_to_scrape`: the quote text
span and the author element are fetched with unguarded `.get_text()` calls,
so a missing sub-element raises. -/
def quoteArticle (url : String) (quote : Node) : Except String Article := do
  let text ← getTextOrThrow
    (findNode (fun n => n.isNamed "span" && n.hasClass "text") quote)
  let author ← getTextOrThrow
    (findNode (fun n => n.isNamed "small" && n.hasClass "author") quote)
  let tags := (findAllNode (fun n => n.isNamed "a" && n.hasClass "tag") quote).map
    Node.getText
  .ok { title := "Quote by " ++ ⟨author⟩
      , author := ⟨author⟩
      , content := ⟨text ++ '\n' :: '\n' :: ("Tags: ".data ++ joinCommaSp tags)⟩
      , source_url := url }

/-- Embedding of `_scrape_quotes_to_scrape`: the first `limit` quote
containers are processed; a raise inside the loop propagates. -/
def scrape_quotes_to_scrape (doc : Node) (url : String) (limit : Nat) :
    Except String (List Article) :=
  exceptMapList (quoteArticle url)
    ((findAllNode (fun n => n.isNamed "div" && n.hasClass "quote") doc).take limit)

mutual
/-- All `tr.athing` rows below a node, each paired with its next `tr`
sibling (`find_next_sibling('tr')`), in document order. -/
def athingRowsNode : Node → List (Node × Option Node)
  | .text _ => []
  | .elem _ _ cs => athingRowsList cs

/-- Worker of `athingRowsNode` over a sibling list. -/
def athingRowsList : List Node → List (Node × Option Node)
  | [] => []
  | n :: ns =>
    (if n.isNamed "tr" && n.hasClass "athing" then
      [(n, ns.find? (fun m => m.isNamed "tr"))]
    else []) ++ athingRowsNode n ++ athingRowsList ns
end

/-- The body of the row loop in `_scrape_hacker_news`: rows without a
titleline span or without a link inside it are skipped; the author comes
from the metadata sibling row, defaulting to `"Unknown"`. -/
def hnRowArticle (url : String) (row : Node) (nextRow : Option Node) :
    Option Article :=
  match findNode (fun n => n.isNamed "span" && n.hasClass "titleline") row with
  | none => none
  | some titleEl =>
    match findNode (fun n => n.isNamed "a") titleEl with
    | none => none
    | some link =>
      let title := pyStrip link.getText
      let lnk := (link.attr "href").getD ""
      let author : String :=
        match nextRow with
        | none => "Unknown"
        | some nr =>
          match findNode (fun n => n.isNamed "a" && n.hasClass "hnuser") nr with
          | none => "Unknown"
          | some ae => ⟨ae.getText⟩
      some { title := ⟨title⟩
           , author := author
           , content := ⟨"Title: ".data ++ title ++ '\n' :: ("Link: ".data ++ lnk.data)⟩
           , source_url := url }

/-- Embedding of `_scrape_hacker_news`. -/
def scrape_hacker_news (doc : Node) (url : String) (limit : Nat) : List Article :=
  ((athingRowsNode doc).take limit).filterMap fun rp => hnRowArticle url rp.1 rp.2

/-- The candidate list of the generic strategy: `article` elements, then
`div`s whose class contains `post`, then `div`s whose class contains
`article`, concatenated in that order (an element can appear twice). -/
def genericCandidates (doc : Node) : List Node :=
  findAllNode (fun n => n.isNamed "article") doc ++
  findAllNode (fun n => n.isNamed "div" && n.classContains "post") doc ++
  findAllNode (fun n => n.isNamed "div" && n.classContains "article") doc

/-- The title-element fallback chain of the generic strategy:
`find('h1') or find('h2') or find('h3') or find('title')`. -/
def firstHeading (article : Node) : Option Node :=
  match findNode (fun n => n.isNamed "h1") article with
  | some t => some t
  | none =>
    match findNode (fun n => n.isNamed "h2") article with
    | some t => some t
    | none =>
      match findNode (fun n => n.isNamed "h3") article with
      | some t => some t
      | none => findNode (fun n => n.isNamed "title") article

/-- The record built for one generic candidate (`i` is its 0-based position
in the truncated candidate list): heading text or a synthesized title, body
text with script/style stripped, stripped and capped at 2000 characters,
author fixed to `"Unknown"`. -/
def genericArticle (url : String) (i : Nat) (article : Node) : Article :=
  let title : String :=
    match firstHeading article with
    | some t => ⟨pyStrip t.getText⟩
    | none => "Article " ++ toString (i + 1)
  { title := title
  , author := "Unknown"
  , content := ⟨(pyStrip (article.textContent ["script", "style"])).take 2000⟩
  , source_url := url }

/-- Embedding of `_scrape_generic` (its internal `try/except` is dead in
this pure model, where the document is already fetched and parsed). -/
def scrape_generic (doc : Node) (url : String) (limit : Nat) : List Article :=
  ((genericCandidates doc).take limit).enum.map fun p => genericArticle url p.1 p.2

/-- Embedding of `WebScraper.scrape_articles`: dispatch on URL substrings,
catching any exception and returning the empty list. -/
def scrape_articles (doc : Node) (url : String) (limit : Nat) : List Article :=
  let result : Except String (List Article) :=
    if strContains url "quotes.toscrape.com" then
      scrape_quotes_to_scrape doc url limit
    else if strContains url "news.ycombinator.com" then
      .ok (scrape_hacker_news doc url limit)
    else
      .ok (scrape_generic doc url limit)
  match result with
  | .ok articles => articles
  | .error _ => []

/-! ## Summarization gateway (`app/gemini/client.py`)

Wall-clock time is modelled by rationals; `time.sleep(d)` advances the
clock by exactly `d`, and the second `time.time()` read in
`_apply_rate_limit` happens at the instant the sleep ends. The external
`generate_content` call is an oracle returning a response text, an empty
response, or an exception. -/

/-- Embedding of `GeminiClient._apply_rate_limit`: given the stored
`last_request_time` and the current clock `now`, returns the time at which
the method finishes (after any sleep) and the new `last_request_time`,
which is updated on every call. -/
def apply_rate_limit (rate_limit_delay last_request_time now : ℚ) : ℚ × ℚ :=
  let t :=
    if now - last_request_time < rate_limit_delay then
      now + (rate_limit_delay - (now - last_request_time))
    else now
  (t, t)

/-- The summarization prompt of `summarize_text` (f-string contents). -/
def summarize_prompt (max_sentences : Nat) (text : String) : String :=
  "\n            Please provide a concise summary of the following text in " ++
  toString max_sentences ++
  " sentences or less. \n            Focus on the main points and key information:\n\n            Text to summarize:\n            " ++
  text ++ "\n\n            Summary:\n            "

/-- The article prompt of `summarize_article`; `author` is optional and an
empty author string is also falsy in Python. -/
def article_prompt (title : String) (author : Option String) (content : String) :
    String :=
  let author_text :=
    match author with
    | some a => if a.isEmpty then "" else " by " ++ a
    | none => ""
  "\n            Please provide a concise 3-sentence summary of this article:\n\n            Title: " ++
  title ++ author_text ++ "\n            Content: " ++ content ++
  "\n\n            Focus on the main message, key points, and important details. Make the summary informative and well-structured.\n\n            Summary:\n            "

/-- Result of one gateway call: the returned string, the new shared
`last_request_time`, and whether the external service was invoked. -/
structure CallResult where
  output : String
  last_request_time : ℚ
  service_called : Bool

/-- Embedding of `GeminiClient.summarize_text`. An empty or whitespace-only
input short-circuits before the rate limiter and the service call; a raising
service is caught and converted to an error string. -/
def summarize_text (service : String → Except String (Option String))
    (last_request_time now : ℚ) (text : String) (max_sentences : Nat := 3) :
    CallResult :=
  if text.isEmpty || (pyStrip text.data).isEmpty then
    ⟨"No content to summarize.", last_request_time, false⟩
  else
    let rl := apply_rate_limit 1 last_request_time now
    match service (summarize_prompt max_sentences text) with
    | .ok (some t) =>
      if t.isEmpty then ⟨"Unable to generate summary.", rl.2, true⟩
      else ⟨pyStripS t, rl.2, true⟩
    | .ok none => ⟨"Unable to generate summary.", rl.2, true⟩
    | .error e => ⟨"Error generating summary: " ++ e, rl.2, true⟩

/-- Embedding of `GeminiClient.summarize_article`. -/
def summarize_article (service : String → Except String (Option String))
    (last_request_time now : ℚ) (title : String) (content : String)
    (author : Option String := none) : CallResult :=
  if content.isEmpty || (pyStrip content.data).isEmpty then
    ⟨"No content to summarize.", last_request_time, false⟩
  else
    let rl := apply_rate_limit 1 last_request_time now
    match service (article_prompt title author content) with
    | .ok (some t) =>
      if t.isEmpty then ⟨"Unable to generate article summary.", rl.2, true⟩
      else ⟨pyStripS t, rl.2, true⟩
    | .ok none => ⟨"Unable to generate article summary.", rl.2, true⟩
    | .error e => ⟨"Error generating article summary: " ++ e, rl.2, true⟩

/-! ## Specification-side predicates for the sentence splitter -/

/-- A split point of the regex `(?<=[.!?])\s+(?=[A-Z])` between a scanned
part `a` and a remainder `b`: `a` ends in sentence punctuation, `b` starts
with whitespace, and the first character after the whitespace run is
uppercase. -/
def boundarySplit (a b : List Char) : Bool :=
  (a.getLast?.any isSentEnd) && (b.head?.any isPySpace) &&
  ((b.dropWhile isPySpace).head?.any isUpperAscii)

/-- A fragment contains an (unsplit) sentence boundary: sentence punctuation
followed by nonempty whitespace followed by an uppercase letter. -/
def hasBoundary (f : List Char) : Prop :=
  ∃ a p ws b, f = a ++ p :: (ws ++ b) ∧ isSentEnd p = true ∧ ws ≠ [] ∧
    (∀ c ∈ ws, isPySpace c = true) ∧ ∃ u b2, b = u :: b2 ∧ isUpperAscii u = true

/-- `SplitsIntoFrags t frags` states that `frags` is exactly the fragment
list obtained by splitting `t` at every sentence boundary: the fragments in
order, separated by nonempty all-whitespace separators, each separator
preceded by sentence punctuation (last character of the previous fragment)
and followed by an uppercase letter (first character of the next fragment),
and no fragment containing a further boundary. -/
def SplitsIntoFrags : List Char → List (List Char) → Prop
  | _, [] => False
  | t, [f] => t = f ∧ ¬ hasBoundary f
  | t, f :: g :: rest =>
    ¬ hasBoundary f ∧
    ∃ sep t2, t = f ++ sep ++ t2 ∧ sep ≠ [] ∧
      (∀ c ∈ sep, isPySpace c = true) ∧
      (∃ a p, f = a ++ [p] ∧ isSentEnd p = true) ∧
      (∃ u r2, t2 = u :: r2 ∧ isUpperAscii u = true) ∧
      SplitsIntoFrags t2 (g :: rest)

/-! ## Concrete fixtures used by witnesses and counterexamples -/

/-- A well-formed quote container. -/
def goodQuote : Node :=
  .elem "div" [("class", "quote")]
    [ .elem "span" [("class", "text")] [.text "Wisdom begins in wonder."]
    , .elem "small" [("class", "author")] [.text "Socrates"]
    , .elem "a" [("class", "tag")] [.text "wisdom"] ]

/-- A malformed quote container: it has a quote-text span but no author
element. -/
def badQuote : Node :=
  .elem "div" [("class", "quote")]
    [ .elem "span" [("class", "text")] [.text "Lost quote"] ]

/-- A quotes page with one well-formed container followed by one malformed
container. -/
def quotesDocMixed : Node :=
  .elem "[document]" [] [goodQuote, badQuote]

/-- A quotes page with only the well-formed container. -/
def quotesDocGood : Node :=
  .elem "[document]" [] [goodQuote]

/-- The record the quote strategy builds from `goodQuote`. -/
def goodQuoteArticle : Article :=
  { title := "Quote by Socrates"
  , author := "Socrates"
  , content := "Wisdom begins in wonder.\n\nTags: wisdom"
  , source_url := "https://quotes.toscrape.com/" }

/-- A page whose single container is a `div` with class `post-article`,
which contains both the substring `post` and the substring `article`. -/
def dupDoc : Node :=
  .elem "[document]" []
    [ .elem "div" [("class", "post-article")]
        [ .elem "h2" [] [.text "My Post"], .text " Hello world content" ] ]

/-- The record the generic strategy builds from the one container of
`dupDoc`. -/
def dupArticle : Article :=
  { title := "My Post"
  , author := "Unknown"
  , content := "My Post Hello world content"
  , source_url := "http://example.com/blog" }

/-- A page with no article tags and no post/article-classed divs. -/
def plainDoc : Node :=
  .elem "[document]" [] [.elem "p" [] [.text "hello"]]

/-- A service oracle that always returns an empty response. -/
def constService : String → Except String (Option String) :=
  fun _ => .ok none

/-- A 100-character text whose only sentence punctuation inside the first 90
characters sits at index 63 — exactly 70 percent of 90. -/
def c4text : String :=
  ⟨List.replicate 63 'a' ++ '.' :: List.replicate 36 'b'⟩

/-- The sentence-cut prefix of `c4text` through the period. -/
def c4cut : String :=
  ⟨List.replicate 63 'a' ++ ['.']⟩

/-- No two adjacent characters are both whitespace (the "no whitespace run
longer than one" property, stated over adjacent pairs). -/
def noTwoWs (a b : Char) : Prop :=
  ¬(isPySpace a = true ∧ isPySpace b = true)

/-- Start-only bullet stripping: what the multiline bullet substitution
amounts to on a string with no newline (only position 0 is a line start). -/
def stripLeadBullet (l : List Char) : List Char :=
  match l with
  | [] => []
  | c :: cs =>
    if bulletChars.contains c && cs.head?.any isPySpace then cs.drop (wsRunLen cs)
    else c :: cs

/-- Start-only numbered-marker stripping: what the multiline numeric-list
substitution amounts to on a string with no newline. -/
def stripLeadNum (l : List Char) : List Char :=
  match l with
  | [] => []
  | c :: cs =>
    if c.isDigit then
      if ((cs.drop (digitRunLen cs)).head?.any (· == '.')) &&
          ((cs.drop (digitRunLen cs + 1)).head?.any isPySpace) then
        cs.drop (digitRunLen cs + 1 + wsRunLen (cs.drop (digitRunLen cs + 1)))
      else c :: cs
    else c :: cs

/-! ## Helper lemmas -/

theorem exceptMapList_ok_length {α β ε : Type} (f : α → Except ε β) :
    ∀ (l : List α) (ys : List β), exceptMapList f l = .ok ys → ys.length = l.length := by
  intro l
  induction l with
  | nil =>
    intro ys h
    simp only [exceptMapList] at h
    cases h
    rfl
  | cons x xs ih =>
    intro ys h
    simp only [exceptMapList] at h
    cases hfx : f x with
    | error e => rw [hfx] at h; cases h
    | ok y =>
      rw [hfx] at h
      cases hrec : exceptMapList f xs with
      | error e => rw [hrec] at h; cases h
      | ok zs =>
        rw [hrec] at h
        cases h
        simp [ih zs hrec]

theorem exceptMapList_error_of_mem {α β ε : Type} (f : α → Except ε β)
    (l : List α) (x : α) (hx : x ∈ l) (e : ε) (hfx : f x = .error e) :
    ∃ d, exceptMapList f l = .error d := by
  induction l with
  | nil => cases hx
  | cons y ys ih =>
    simp only [exceptMapList]
    cases hfy : f y with
    | error d => exact ⟨d, rfl⟩
    | ok b =>
      rcases List.mem_cons.mp hx with h | h
      · subst h
        rw [hfy] at hfx
        cases hfx
      · rcases ih h with ⟨d, hd⟩
        rw [hd]
        exact ⟨d, rfl⟩

/-- A malformed quote container (missing text span or missing author) makes
the loop body raise. -/
theorem quoteArticle_error_of_malformed (url : String) (q : Node)
    (h : findNode (fun n => n.isNamed "span" && n.hasClass "text") q = none ∨
         findNode (fun n => n.isNamed "small" && n.hasClass "author") q = none) :
    ∃ e, quoteArticle url q = .error e := by
  rcases h with h | h
  · exact ⟨"AttributeError", by simp [quoteArticle, h, getTextOrThrow, Bind.bind, Except.bind]⟩
  · cases hspan : findNode (fun n => n.isNamed "span" && n.hasClass "text") q with
    | none => exact ⟨"AttributeError", by simp [quoteArticle, hspan, getTextOrThrow, Bind.bind, Except.bind]⟩
    | some t =>
      exact ⟨"AttributeError", by simp [quoteArticle, hspan, h, getTextOrThrow, Bind.bind, Except.bind]⟩

/-! ## Claims -/

/-- Claim C1, counterexample: on a quotes page whose second container lacks
an author element, the whole extraction returns no records at all, although
the first container alone would produce its record — the malformed item does
not merely skip itself. -/
theorem C1_counterexample :
    scrape_articles quotesDocMixed "https://quotes.toscrape.com/" 5 = [] ∧
    scrape_articles quotesDocGood "https://quotes.toscrape.com/" 5
      = [goodQuoteArticle] := by
  constructor <;> rfl

/-- Claim C1, amended: in the quote-layout strategy a container with a
missing sub-element raises, the exception propagates out of the per-item
loop, and `scrape_articles` catches it and returns the empty list — the
whole extraction call is aborted and even well-formed containers yield no
records. -/
theorem C1_malformed_container_aborts_batch (doc : Node) (url : String)
    (limit : Nat) (hurl : strContains url "quotes.toscrape.com" = true)
    (hbad : ∃ q ∈ (findAllNode
        (fun n => n.isNamed "div" && n.hasClass "quote") doc).take limit,
      findNode (fun n => n.isNamed "span" && n.hasClass "text") q = none ∨
      findNode (fun n => n.isNamed "small" && n.hasClass "author") q = none) :
    scrape_articles doc url limit = [] := by
  rcases hbad with ⟨q, hq, hmal⟩
  rcases quoteArticle_error_of_malformed url q hmal with ⟨e, he⟩
  rcases exceptMapList_error_of_mem (quoteArticle url) _ q hq e he with ⟨d, hd⟩
  simp [scrape_articles, hurl, scrape_quotes_to_scrape, hd]

/-- Claim C1, amended, witness at the concrete mixed fixture. -/
theorem C1_malformed_container_aborts_batch_witness :
    scrape_articles quotesDocMixed "https://quotes.toscrape.com/" 5 = [] :=
  C1_malformed_container_aborts_batch quotesDocMixed
    "https://quotes.toscrape.com/" 5 rfl
    ⟨badQuote, List.Mem.tail _ (List.Mem.head _), Or.inr rfl⟩

/-- Claim C2: for every document, URL and limit, extraction returns at most
`limit` records; and on a document with no matching elements each of the
three strategies returns the empty sequence rather than raising — the
quote-layout strategy with no quote containers returns `ok []`, the
link-aggregator strategy with no item rows returns `[]`, the generic
strategy with no `article` elements and no post/article-classed `div`s
returns `[]` — so `scrape_articles` itself returns `[]` on a document with
no matching elements, whichever strategy the URL dispatches to. -/
theorem C2_limit_bound_and_empty_on_no_match (doc : Node) (url : String)
    (limit : Nat) :
    (scrape_articles doc url limit).length ≤ limit ∧
    (findAllNode (fun n => n.isNamed "div" && n.hasClass "quote") doc = [] →
      scrape_quotes_to_scrape doc url limit = .ok []) ∧
    (athingRowsNode doc = [] → scrape_hacker_news doc url limit = []) ∧
    ((findAllNode (fun n => n.isNamed "article") doc = [] ∧
      findAllNode (fun n => n.isNamed "div" && n.classContains "post") doc = [] ∧
      findAllNode (fun n => n.isNamed "div" && n.classContains "article") doc = []) →
      scrape_generic doc url limit = []) ∧
    ((findAllNode (fun n => n.isNamed "div" && n.hasClass "quote") doc = [] ∧
      athingRowsNode doc = [] ∧
      findAllNode (fun n => n.isNamed "article") doc = [] ∧
      findAllNode (fun n => n.isNamed "div" && n.classContains "post") doc = [] ∧
      findAllNode (fun n => n.isNamed "div" && n.classContains "article") doc = []) →
      scrape_articles doc url limit = []) := by
  have hquotes : findAllNode (fun n => n.isNamed "div" && n.hasClass "quote") doc = [] →
      scrape_quotes_to_scrape doc url limit = .ok [] := by
    intro h
    simp [scrape_quotes_to_scrape, h, exceptMapList]
  have hhn : athingRowsNode doc = [] → scrape_hacker_news doc url limit = [] := by
    intro h
    simp [scrape_hacker_news, h]
  have hgen : (findAllNode (fun n => n.isNamed "article") doc = [] ∧
      findAllNode (fun n => n.isNamed "div" && n.classContains "post") doc = [] ∧
      findAllNode (fun n => n.isNamed "div" && n.classContains "article") doc = []) →
      scrape_generic doc url limit = [] := by
    intro ⟨h1, h2, h3⟩
    simp [scrape_generic, genericCandidates, h1, h2, h3]
  refine ⟨?_, hquotes, hhn, hgen, ?_⟩
  · unfold scrape_articles
    by_cases hq : strContains url "quotes.toscrape.com" = true
    · simp only [hq, if_pos]
      cases hres : scrape_quotes_to_scrape doc url limit with
      | error e => simp
      | ok ys =>
        simp only []
        have := exceptMapList_ok_length (quoteArticle url) _ ys hres
        rw [this]
        simp [List.length_take]
    · simp only [hq]
      by_cases hh : strContains url "news.ycombinator.com" = true
      · simp only [hh, if_pos, Bool.not_eq_true] at *
        simp only [hq, if_neg, Bool.false_eq_true, not_false_iff, hh, if_pos]
        calc (scrape_hacker_news doc url limit).length
            ≤ ((athingRowsNode doc).take limit).length :=
              List.length_filterMap_le _ _
          _ ≤ limit := by simp [List.length_take]
      · simp only [Bool.not_eq_true] at hq hh
        simp only [hq, hh, Bool.false_eq_true, if_neg, not_false_iff]
        simp [scrape_generic, List.length_take]
  · intro ⟨h1, h2, h3, h4, h5⟩
    unfold scrape_articles
    by_cases hq : strContains url "quotes.toscrape.com" = true
    · simp only [hq, if_pos]
      rw [hquotes h1]
    · simp only [hq]
      by_cases hh : strContains url "news.ycombinator.com" = true
      · simp only [Bool.not_eq_true] at hq
        simp only [hq, Bool.false_eq_true, if_neg, not_false_iff, hh, if_pos]
        exact hhn h2
      · simp only [Bool.not_eq_true] at hq hh
        simp only [hq, hh, Bool.false_eq_true, if_neg, not_false_iff]
        exact hgen ⟨h3, h4, h5⟩

/-- Claim C2, witness: a document with no candidates of any kind yields no
records under every strategy, and the bound holds at the fixture. -/
theorem C2_limit_bound_and_empty_on_no_match_witness :
    (scrape_articles plainDoc "http://example.com/" 5).length ≤ 5 ∧
    scrape_quotes_to_scrape plainDoc "http://example.com/" 5 = .ok [] ∧
    scrape_hacker_news plainDoc "http://example.com/" 5 = [] ∧
    scrape_generic plainDoc "http://example.com/" 5 = [] ∧
    scrape_articles plainDoc "http://example.com/" 5 = [] :=
  ⟨(C2_limit_bound_and_empty_on_no_match plainDoc "http://example.com/" 5).1,
   (C2_limit_bound_and_empty_on_no_match plainDoc "http://example.com/" 5).2.1 rfl,
   (C2_limit_bound_and_empty_on_no_match plainDoc "http://example.com/" 5).2.2.1 rfl,
   (C2_limit_bound_and_empty_on_no_match plainDoc "http://example.com/" 5).2.2.2.1
     ⟨rfl, rfl, rfl⟩,
   (C2_limit_bound_and_empty_on_no_match plainDoc "http://example.com/" 5).2.2.2.2
     ⟨rfl, rfl, rfl, rfl, rfl⟩⟩

/-- Claim C10: a `div` whose class contains both `post` and `article` is
collected by the post-class search and again by the article-class search, so
it appears twice in the concatenated candidate list: the generic strategy
emits two identical records for the single container of `dupDoc`, and each
copy counts against the limit (with limit 1 only one record is emitted). -/
theorem C10_double_counted_candidate :
    findAllNode (fun n => n.isNamed "article") dupDoc = [] ∧
    findAllNode (fun n => n.isNamed "div" && n.classContains "post") dupDoc
      = [.elem "div" [("class", "post-article")]
          [.elem "h2" [] [.text "My Post"], .text " Hello world content"]] ∧
    findAllNode (fun n => n.isNamed "div" && n.classContains "article") dupDoc
      = [.elem "div" [("class", "post-article")]
          [.elem "h2" [] [.text "My Post"], .text " Hello world content"]] ∧
    scrape_articles dupDoc "http://example.com/blog" 2
      = [dupArticle, dupArticle] ∧
    scrape_articles dupDoc "http://example.com/blog" 1 = [dupArticle] :=
  ⟨rfl, rfl, rfl, rfl, rfl⟩

/-- Claim C8: every record of the generic strategy has author `"Unknown"`, a
body of at most 2000 characters, and a title that is the stripped text of
the first h1/h2/h3/title element of its candidate, or the synthesized
`"Article {i+1}"` with 1-based index when no such element exists. -/
theorem C8_generic_record_shape (doc : Node) (url : String) (limit : Nat)
    (a : Article) (h : a ∈ scrape_generic doc url limit) :
    a.author = "Unknown" ∧ a.content.length ≤ 2000 ∧
    ∃ i cand, ((genericCandidates doc).take limit)[i]? = some cand ∧
      a = genericArticle url i cand ∧
      ((∃ t, firstHeading cand = some t ∧ a.title = ⟨pyStrip t.getText⟩) ∨
       (firstHeading cand = none ∧ a.title = "Article " ++ toString (i + 1))) := by
  unfold scrape_generic at h
  rcases List.mem_map.mp h with ⟨p, hp, rfl⟩
  have hget := List.mem_enum_iff_getElem?.mp hp
  refine ⟨rfl, ?_, p.1, p.2, hget, rfl, ?_⟩
  · simp only [genericArticle, String.length, List.length_take]
    omega
  · cases hfh : firstHeading p.2 with
    | some t => exact Or.inl ⟨t, rfl, by simp [genericArticle, hfh]⟩
    | none => exact Or.inr ⟨rfl, by simp [genericArticle, hfh]⟩

/-- Claim C8, witness at the concrete fixture. -/
theorem C8_generic_record_shape_witness :
    dupArticle ∈ scrape_generic dupDoc "http://example.com/blog" 2 ∧
    dupArticle.author = "Unknown" ∧ dupArticle.content.length ≤ 2000 :=
  ⟨List.Mem.head _,
   (C8_generic_record_shape dupDoc "http://example.com/blog" 2 dupArticle
     (List.Mem.head _)).1,
   (C8_generic_record_shape dupDoc "http://example.com/blog" 2 dupArticle
     (List.Mem.head _)).2.1⟩

/-- Claim C5: consecutive gateway calls are separated by at least the
configured interval. The first conjunct: for any stored timestamp and any
two clock readings, the instant at which the second `_apply_rate_limit`
finishes is at least `delay` after the instant the first one finished (the
timestamp is set to the finish instant, so the two service calls issued at
those instants are at least `delay` apart). The remaining conjuncts: both
gateway methods store the rate limiter's updated timestamp on every attempt,
whatever the service outcome. -/
theorem C5_rate_limit_spacing :
    (∀ delay last0 now1 now2 : ℚ,
      delay ≤ (apply_rate_limit delay (apply_rate_limit delay last0 now1).2 now2).1
        - (apply_rate_limit delay last0 now1).1) ∧
    (∀ (service : String → Except String (Option String)) (last now : ℚ)
        (text : String) (ms : Nat),
      (text.isEmpty || (pyStrip text.data).isEmpty) = false →
      (summarize_text service last now text ms).last_request_time
        = (apply_rate_limit 1 last now).2) ∧
    (∀ (service : String → Except String (Option String)) (last now : ℚ)
        (title content : String) (author : Option String),
      (content.isEmpty || (pyStrip content.data).isEmpty) = false →
      (summarize_article service last now title content author).last_request_time
        = (apply_rate_limit 1 last now).2) := by
  refine ⟨?_, ?_, ?_⟩
  · intro delay last0 now1 now2
    simp only [apply_rate_limit]
    split_ifs with h1 h2 h3 <;> linarith
  · intro service last now text ms h
    simp only [summarize_text, h, Bool.false_eq_true, if_neg, not_false_iff]
    cases hs : service (summarize_prompt ms text) with
    | error e => simp
    | ok r =>
      cases r with
      | none => simp
      | some t => by_cases ht : t.isEmpty <;> simp [ht]
  · intro service last now title content author h
    simp only [summarize_article, h, Bool.false_eq_true, if_neg, not_false_iff]
    cases hs : service (article_prompt title author content) with
    | error e => simp
    | ok r =>
      cases r with
      | none => simp
      | some t => by_cases ht : t.isEmpty <;> simp [ht]

/-- Claim C5, witness at concrete times and inputs. -/
theorem C5_rate_limit_spacing_witness :
    (1 : ℚ) ≤ (apply_rate_limit 1 (apply_rate_limit 1 0 5).2 5).1
      - (apply_rate_limit 1 0 5).1 ∧
    (summarize_text constService 0 5 "hello" 3).last_request_time
      = (apply_rate_limit 1 0 5).2 :=
  ⟨C5_rate_limit_spacing.1 1 0 5 5,
   C5_rate_limit_spacing.2.1 constService 0 5 "hello" 3 (by decide)⟩

/-- Claim C9: on an empty or whitespace-only body both gateway methods
return the exact sentinel, leave the shared timestamp untouched (the rate
limiter is not applied) and do not invoke the external service; being total
functions into strings, they raise on no input, and a raising service is
converted into an error string elsewhere in their definitions. -/
theorem C9_empty_body_short_circuit
    (service : String → Except String (Option String)) (last now : ℚ)
    (text title : String) (ms : Nat) (author : Option String)
    (h : pyStrip text.data = []) :
    summarize_text service last now text ms
      = ⟨"No content to summarize.", last, false⟩ ∧
    summarize_article service last now title text author
      = ⟨"No content to summarize.", last, false⟩ := by
  constructor <;> simp [summarize_text, summarize_article, h]

/-- Claim C9, witness on a whitespace-only body. -/
theorem C9_empty_body_short_circuit_witness :
    summarize_text constService 0 5 "  " 3
      = ⟨"No content to summarize.", 0, false⟩ ∧
    summarize_article constService 0 5 "Title" "  " none
      = ⟨"No content to summarize.", 0, false⟩ :=
  C9_empty_body_short_circuit constService 0 5 "  " "Title" 3 none (by decide)

theorem rfindChar_bounds (c : Char) :
    ∀ l : List Char, -1 ≤ rfindChar l c ∧ rfindChar l c < (l.length : Int) := by
  intro l
  induction l with
  | nil => simp [rfindChar]
  | cons x xs ih =>
    obtain ⟨ih1, ih2⟩ := ih
    simp only [rfindChar, List.length_cons]
    split_ifs with h1 h2 <;> constructor <;> push_cast <;> omega

theorem rfindChar_getElem (c : Char) :
    ∀ l : List Char, 0 ≤ rfindChar l c →
      l[(rfindChar l c).toNat]? = some c := by
  intro l
  induction l with
  | nil => intro h; simp [rfindChar] at h
  | cons x xs ih =>
    intro h
    simp only [rfindChar] at h ⊢
    by_cases h0 : 0 ≤ rfindChar xs c
    · rw [if_pos h0] at h ⊢
      have : ((rfindChar xs c) + 1).toNat = (rfindChar xs c).toNat + 1 := by omega
      rw [this]
      simpa using ih h0
    · rw [if_neg h0] at h ⊢
      by_cases hx : x == c
      · rw [if_pos hx]
        simp only [Int.toNat_zero, List.getElem?_cons_zero, Option.some.injEq]
        exact (beq_iff_eq.mp hx)
      · rw [if_neg hx] at h
        omega

set_option maxRecDepth 40000 in
/-- Claim C4, counterexample: at `max_chars = 90` the rightmost sentence
punctuation of the first 90 characters sits at index 63, which is exactly 70
percent of 90 and not past it, so the claim demands the hard cut plus
`'...'`; but the program compares the index against the IEEE-754 double
`90 * 0.7 = 63 - 2^-47` and takes the sentence cut instead. -/
theorem C4_counterexample :
    (max (max (rfindChar (c4text.data.take 90) '.')
        (rfindChar (c4text.data.take 90) '!'))
      (rfindChar (c4text.data.take 90) '?') = (63 : Int)) ∧
    ¬(7 * 90 < 10 * 63) ∧
    (float07timesNum 90 : Int) < 63 * 2 ^ 52 ∧
    limit_length c4text 90 = c4cut ∧
    limit_length c4text 90 ≠ ⟨c4text.data.take 90 ++ ['.', '.', '.']⟩ :=
  ⟨by decide, by decide, by decide, by decide, by decide⟩

/-- Claim C4, amended: `limit_length` returns texts that fit unchanged; on
longer texts the result has at most `max_chars + 3` characters and is either
the prefix ending (inclusive) at the rightmost sentence punctuation of the
first `max_chars` characters — when that index exceeds the IEEE-754 double
`max_chars * 0.7`, a threshold that can sit just below the exact 70 percent
mark — or the first `max_chars` characters followed by `'...'`. -/
theorem C4_limit_length_truncation (text : String) (m : Nat) :
    (text.length ≤ m → limit_length text m = text) ∧
    (m < text.length →
      (limit_length text m).length ≤ m + 3 ∧
      (let tr := text.data.take m
       let lastEnd : Int :=
         max (max (rfindChar tr '.') (rfindChar tr '!')) (rfindChar tr '?')
       if (float07timesNum m : Int) < lastEnd * 2 ^ 52 then
         limit_length text m = ⟨text.data.take (lastEnd.toNat + 1)⟩ ∧
         lastEnd.toNat < m ∧
         ∃ c, text.data[lastEnd.toNat]? = some c ∧ isSentEnd c = true
       else
         limit_length text m = ⟨text.data.take m ++ ['.', '.', '.']⟩)) := by
  constructor
  · intro h
    simp [limit_length, h]
  · intro h
    have hnot : ¬ text.length ≤ m := by omega
    have htrlen : (text.data.take m).length = m := by
      simp only [List.length_take]
      have : text.data.length = text.length := rfl
      omega
    have hb1 := rfindChar_bounds '.' (text.data.take m)
    have hb2 := rfindChar_bounds '!' (text.data.take m)
    have hb3 := rfindChar_bounds '?' (text.data.take m)
    rw [htrlen] at hb1 hb2 hb3
    constructor
    · unfold limit_length
      rw [if_neg hnot]
      simp only []
      split_ifs with hc
      · simp only [String.length, List.length_take]
        omega
      · simp only [String.length, List.length_append, List.length_take,
          List.length_cons, List.length_nil]
        omega
    · simp only []
      split_ifs with hc
      · have hcast : (0 : Int) ≤ (float07timesNum m : Int) :=
          Int.natCast_nonneg _
        have h52 : (2 : Int) ^ 52 = 4503599627370496 := by norm_num
        have hpos : 0 ≤ max (max (rfindChar (text.data.take m) '.')
            (rfindChar (text.data.take m) '!'))
            (rfindChar (text.data.take m) '?') := by
          rw [h52] at hc
          omega
        refine ⟨?_, ?_, ?_⟩
        · unfold limit_length
          rw [if_neg hnot, if_pos hc]
        · omega
        · rcases max_choice (max (rfindChar (text.data.take m) '.')
              (rfindChar (text.data.take m) '!')) (rfindChar (text.data.take m) '?')
            with hm | hm
          · rcases max_choice (rfindChar (text.data.take m) '.')
                (rfindChar (text.data.take m) '!') with hm2 | hm2
            · refine ⟨'.', ?_, rfl⟩
              rw [hm, hm2] at hpos ⊢
              rw [← List.getElem?_take_of_lt (l := text.data)
                (n := m) (by omega)]
              exact rfindChar_getElem '.' (text.data.take m) hpos
            · refine ⟨'!', ?_, rfl⟩
              rw [hm, hm2] at hpos ⊢
              rw [← List.getElem?_take_of_lt (l := text.data)
                (n := m) (by omega)]
              exact rfindChar_getElem '!' (text.data.take m) hpos
          · refine ⟨'?', ?_, rfl⟩
            rw [hm] at hpos ⊢
            rw [← List.getElem?_take_of_lt (l := text.data)
              (n := m) (by omega)]
            exact rfindChar_getElem '?' (text.data.take m) hpos
      · unfold limit_length
        rw [if_neg hnot, if_neg hc]

/-- Claim C4, amended, witness: a fitting text is unchanged and a long text
is bounded. -/
theorem C4_limit_length_truncation_witness :
    limit_length "Hello" 10 = "Hello" ∧
    (limit_length "Hello. Worldly extra" 10).length ≤ 13 :=
  ⟨(C4_limit_length_truncation "Hello" 10).1 (by decide),
   ((C4_limit_length_truncation "Hello. Worldly extra" 10).2 (by decide)).1⟩

theorem ofNatAux_toNat (n : Nat) (h : n.isValidChar) :
    (Char.ofNatAux n h).toNat = n := rfl

theorem isUpperAscii_toLowerAscii (c : Char) :
    isUpperAscii (toLowerAscii c) = false := by
  unfold toLowerAscii
  split_ifs with h
  · simp only [isUpperAscii, ofNatAux_toNat]
    simp only [Bool.and_eq_false_iff, decide_eq_false_iff_not]
    omega
  · simp only [isUpperAscii, Bool.and_eq_false_iff, decide_eq_false_iff_not]
    omega

theorem toLowerAscii_lt_inv (c : Char) (h : toLowerAscii c = '<') : c = '<' := by
  unfold toLowerAscii at h
  split_ifs at h with hu
  · exfalso
    have h2 := congrArg Char.toNat h
    simp only [ofNatAux_toNat] at h2
    have h60 : ('<').toNat = 60 := rfl
    omega
  · exact h

theorem flip_noTwoWs : flip noTwoWs = noTwoWs := by
  funext a b
  simp [flip, noTwoWs, and_comm]

theorem collapseWs_props :
    ∀ l : List Char, (∀ c ∈ collapseWs l, isPySpace c = true → c = ' ') ∧
      List.Chain' noTwoWs (collapseWs l) := by
  intro l
  induction l with
  | nil => simp [collapseWs]
  | cons c cs ih =>
    obtain ⟨ihm, ihc⟩ := ih
    simp only [collapseWs]
    by_cases hws : isPySpace c = true
    · rw [if_pos hws]
      by_cases hh : (collapseWs cs).head? == some ' '
      · rw [if_pos hh]
        exact ⟨ihm, ihc⟩
      · rw [if_neg hh]
        refine ⟨?_, ?_⟩
        · intro x hx hxw
          rcases List.mem_cons.mp hx with h | h
          · exact h
          · exact ihm x h hxw
        · cases hrest : collapseWs cs with
          | nil => simp
          | cons r rs =>
            rw [List.chain'_cons]
            rw [hrest] at ihm ihc hh
            refine ⟨?_, ihc⟩
            intro ⟨_, hrw⟩
            have : r = ' ' := ihm r (List.mem_cons_self _ _) hrw
            rw [this] at hh
            simp at hh
    · rw [if_neg hws]
      refine ⟨?_, ?_⟩
      · intro x hx hxw
        rcases List.mem_cons.mp hx with h | h
        · exact absurd (h ▸ hxw) (by simpa using hws)
        · exact ihm x h hxw
      · cases hrest : collapseWs cs with
        | nil => simp
        | cons r rs =>
          rw [List.chain'_cons]
          rw [hrest] at ihc
          refine ⟨?_, ihc⟩
          intro ⟨hcw, _⟩
          exact hws hcw

theorem chain_pyStrip (l : List Char) (h : List.Chain' noTwoWs l) :
    List.Chain' noTwoWs (pyStrip l) := by
  unfold pyStrip
  have h1 : List.Chain' noTwoWs (l.dropWhile isPySpace) :=
    h.suffix (List.dropWhile_suffix _)
  have h2 : List.Chain' noTwoWs (l.dropWhile isPySpace).reverse := by
    rw [List.chain'_reverse, flip_noTwoWs]
    exact h1
  have h3 : List.Chain' noTwoWs
      ((l.dropWhile isPySpace).reverse.dropWhile isPySpace) :=
    h2.suffix (List.dropWhile_suffix _)
  rw [List.chain'_reverse, flip_noTwoWs]
  exact h3

theorem mem_pyStrip (c : Char) (l : List Char) (h : c ∈ pyStrip l) : c ∈ l := by
  unfold pyStrip at h
  rw [List.mem_reverse] at h
  have h1 := (List.dropWhile_sublist (l := (l.dropWhile isPySpace).reverse)
    isPySpace).subset h
  rw [List.mem_reverse] at h1
  exact (List.dropWhile_sublist isPySpace).subset h1

theorem mem_collapseWs (c : Char) :
    ∀ l : List Char, c ∈ collapseWs l → c ∈ l ∨ c = ' ' := by
  intro l
  induction l with
  | nil => intro h; simp [collapseWs] at h
  | cons x xs ih =>
    intro h
    simp only [collapseWs] at h
    by_cases hws : isPySpace x = true
    · rw [if_pos hws] at h
      by_cases hh : (collapseWs xs).head? == some ' '
      · rw [if_pos hh] at h
        rcases ih h with h2 | h2
        · exact Or.inl (List.mem_cons_of_mem _ h2)
        · exact Or.inr h2
      · rw [if_neg hh] at h
        rcases List.mem_cons.mp h with h2 | h2
        · exact Or.inr h2
        · rcases ih h2 with h3 | h3
          · exact Or.inl (List.mem_cons_of_mem _ h3)
          · exact Or.inr h3
    · rw [if_neg hws] at h
      rcases List.mem_cons.mp h with h | h
      · exact Or.inl (h ▸ List.mem_cons_self _ _)
      · rcases ih h with h | h
        · exact Or.inl (List.mem_cons_of_mem _ h)
        · exact Or.inr h

theorem mem_joinWords (c : Char) :
    ∀ ws : List (List Char), c ∈ joinWords ws →
      (∃ w ∈ ws, c ∈ w) ∨ c = ' ' := by
  intro ws
  induction ws with
  | nil => intro h; simp [joinWords] at h
  | cons w vs ih =>
    cases vs with
    | nil =>
      intro h
      simp only [joinWords] at h
      exact Or.inl ⟨w, List.mem_cons_self _ _, h⟩
    | cons v vs2 =>
      intro h
      have : c ∈ w ++ ' ' :: joinWords (v :: vs2) := h
      rcases List.mem_append.mp this with h | h
      · exact Or.inl ⟨w, List.mem_cons_self _ _, h⟩
      · rcases List.mem_cons.mp h with h | h
        · exact Or.inr h
        · rcases ih h with ⟨u, hu, hcu⟩ | h
          · exact Or.inl ⟨u, List.mem_cons_of_mem _ hu, hcu⟩
          · exact Or.inr h

theorem pySplitAux_chars (c : Char) :
    ∀ (l acc : List Char) (w : List Char), w ∈ pySplitAux acc l → c ∈ w →
      c ∈ acc ∨ c ∈ l := by
  intro l
  induction l with
  | nil =>
    intro acc w hw hc
    simp only [pySplitAux] at hw
    split_ifs at hw with he
    · simp at hw
    · rcases List.mem_singleton.mp hw with rfl
      exact Or.inl (List.mem_reverse.mp hc)
  | cons x xs ih =>
    intro acc w hw hc
    simp only [pySplitAux] at hw
    by_cases hws : isPySpace x = true
    · rw [if_pos hws] at hw
      split_ifs at hw with he
      · rcases ih [] w hw hc with h | h
        · simp at h
        · exact Or.inr (List.mem_cons_of_mem _ h)
      · rcases List.mem_cons.mp hw with h | h
        · exact Or.inl (List.mem_reverse.mp (h ▸ hc))
        · rcases ih [] w h hc with h2 | h2
          · simp at h2
          · exact Or.inr (List.mem_cons_of_mem _ h2)
    · rw [if_neg hws] at hw
      rcases ih (x :: acc) w hw hc with h | h
      · rcases List.mem_cons.mp h with h2 | h2
        · exact Or.inr (h2 ▸ List.mem_cons_self _ _)
        · exact Or.inl h2
      · exact Or.inr (List.mem_cons_of_mem _ h)

/-- Every character of a preprocessed text is a space or the lowercasing of
a character that survived the punctuation filter. -/
theorem mem_stopwordStage (c : Char) (rs : Bool) (t : List Char)
    (h : c ∈ stopwordStage rs t) : c ∈ t ∨ c = ' ' := by
  unfold stopwordStage at h
  split_ifs at h with hrs
  · rcases mem_joinWords c _ h with ⟨w, hw, hcw⟩ | hsp
    · have hw2 : w ∈ pySplitWs t := List.mem_of_mem_filter hw
      rcases pySplitAux_chars c _ [] w hw2 hcw with h4 | h4
      · simp at h4
      · exact Or.inl h4
    · exact Or.inr hsp
  · exact Or.inl h

theorem preprocess_chars (t : String) (rs : Bool) (c : Char)
    (h : c ∈ (preprocess_text t rs).data) :
    c = ' ' ∨ ∃ c0, c = toLowerAscii c0 ∧ keepChar c0 = true := by
  unfold preprocess_text at h
  split_ifs at h with he
  · simp at h
  · have h1 : c ∈ collapseWs (stopwordStage rs
        (lowerStr (List.filter keepChar
          (collapseWs (removeEmails (removeUrls (removeTags t.data))))))) :=
      mem_pyStrip c _ h
    rcases mem_collapseWs c _ h1 with h2 | h2
    swap
    · exact Or.inl h2
    rcases mem_stopwordStage c rs _ h2 with h3 | h3
    swap
    · exact Or.inl h3
    rcases List.mem_map.mp h3 with ⟨c0, hc0, hlc⟩
    exact Or.inr ⟨c0, hlc.symm, List.of_mem_filter hc0⟩

/-- Claim C6: the normalized text contains no `<...>` substring, no two
adjacent whitespace characters, and no uppercase (ASCII) letters, and the
empty (Python-falsy) input normalizes to the empty string. -/
theorem C6_normalize_properties (t : String) (rs : Bool) :
    (¬ ∃ pre mid post, (preprocess_text t rs).data
        = pre ++ '<' :: (mid ++ '>' :: post)) ∧
    List.Chain' noTwoWs (preprocess_text t rs).data ∧
    (∀ c ∈ (preprocess_text t rs).data, isUpperAscii c = false) ∧
    preprocess_text "" rs = "" := by
  refine ⟨?_, ?_, ?_, rfl⟩
  · rintro ⟨pre, mid, post, hd⟩
    have hmem : '<' ∈ (preprocess_text t rs).data := by
      rw [hd]
      simp
    rcases preprocess_chars t rs '<' hmem with h | ⟨c0, hc0, hk⟩
    · exact absurd h (by decide)
    · have hc0lt : c0 = '<' := toLowerAscii_lt_inv c0 hc0.symm
      rw [hc0lt] at hk
      exact absurd hk (by decide)
  · unfold preprocess_text
    split_ifs with he
    · simp
    · exact chain_pyStrip _ (collapseWs_props _).2
  · intro c hc
    rcases preprocess_chars t rs c hc with h | ⟨c0, hc0, _⟩
    · rw [h]
      decide
    · rw [hc0]
      exact isUpperAscii_toLowerAscii c0

theorem newline_not_mem_collapseWs (l : List Char) : '\n' ∉ collapseWs l := by
  intro h
  have := (collapseWs_props l).1 '\n' h (by decide)
  exact absurd this (by decide)

theorem mem_stripDelims_aux (c : Char) (d : List Char) :
    ∀ (n : Nat) (s : List Char), s.length ≤ n → c ∈ stripDelims d s → c ∈ s := by
  intro n
  induction n with
  | zero =>
    intro s hs h
    cases s with
    | nil => simp [stripDelims] at h
    | cons x xs => simp at hs
  | succ n ih =>
    intro s hs h
    cases s with
    | nil => simp [stripDelims] at h
    | cons x xs =>
      have hxs : xs.length ≤ n := by
        simp only [List.length_cons] at hs
        omega
      simp only [stripDelims] at h
      by_cases hd : d.isEmpty = true
      · rw [if_pos hd] at h
        rcases List.mem_cons.mp h with h | h
        · exact h ▸ List.mem_cons_self _ _
        · exact List.mem_cons_of_mem _ (ih xs hxs h)
      · rw [if_neg hd] at h
        by_cases hp : d.isPrefixOf (x :: xs) = true
        · rw [if_pos hp] at h
          cases hfp : findPat d (xs.drop (d.length - 1)) with
          | none =>
            rw [hfp] at h
            rcases List.mem_cons.mp h with h | h
            · exact h ▸ List.mem_cons_self _ _
            · exact List.mem_cons_of_mem _ (ih xs hxs h)
          | some i =>
            rw [hfp] at h
            simp only [] at h
            by_cases hnl : ((xs.drop (d.length - 1)).take i).contains '\n' = true
            · rw [if_pos hnl] at h
              rcases List.mem_cons.mp h with h | h
              · exact h ▸ List.mem_cons_self _ _
              · exact List.mem_cons_of_mem _ (ih xs hxs h)
            · rw [if_neg hnl] at h
              rcases List.mem_append.mp h with h | h
              · have h1 : c ∈ xs.drop (d.length - 1) :=
                  List.take_subset _ _ h
                exact List.mem_cons_of_mem _ (List.drop_subset _ _ h1)
              · have hrec : c ∈ xs.drop (d.length - 1 + i + d.length) :=
                  ih _ (by simp [List.length_drop]; omega) h
                exact List.mem_cons_of_mem _ (List.drop_subset _ _ hrec)
        · rw [if_neg hp] at h
          rcases List.mem_cons.mp h with h | h
          · exact h ▸ List.mem_cons_self _ _
          · exact List.mem_cons_of_mem _ (ih xs hxs h)

theorem mem_stripDelims (c : Char) (d : List Char) (s : List Char)
    (h : c ∈ stripDelims d s) : c ∈ s :=
  mem_stripDelims_aux c d s.length s (Nat.le_refl _) h

theorem subBullet_false_id :
    ∀ l : List Char, '\n' ∉ l → subBullet false l = l := by
  intro l
  induction l with
  | nil => intro _; simp [subBullet]
  | cons c cs ih =>
    intro hn
    simp only [subBullet, Bool.false_and, Bool.false_eq_true, if_false]
    have hc : (c == '\n') = false := by
      simp only [beq_eq_false_iff_ne, ne_eq]
      intro hh
      exact hn (hh ▸ List.mem_cons_self _ _)
    rw [hc]
    rw [ih (fun hm => hn (List.mem_cons_of_mem _ hm))]

theorem subNum_false_id :
    ∀ l : List Char, '\n' ∉ l → subNum false l = l := by
  intro l
  induction l with
  | nil => intro _; simp [subNum]
  | cons c cs ih =>
    intro hn
    simp only [subNum, Bool.false_and, Bool.false_eq_true, if_false]
    have hc : (c == '\n') = false := by
      simp only [beq_eq_false_iff_ne, ne_eq]
      intro hh
      exact hn (hh ▸ List.mem_cons_self _ _)
    rw [hc]
    rw [ih (fun hm => hn (List.mem_cons_of_mem _ hm))]

theorem getLast_take_not_newline (cs : List Char) (k : Nat) (hn : '\n' ∉ cs) :
    ((cs.take k).getLast?.any (fun x => x == '\n')) = false := by
  cases hl : (cs.take k).getLast? with
  | none => rfl
  | some a =>
    have ha : a ∈ cs.take k := List.mem_of_getLast?_eq_some hl
    have ha2 : a ∈ cs := List.take_subset _ _ ha
    simp only [Option.any_some, beq_eq_false_iff_ne, ne_eq]
    intro hh
    exact hn (hh ▸ ha2)

theorem subBullet_true_eq_stripLeadBullet (l : List Char) (hn : '\n' ∉ l) :
    subBullet true l = stripLeadBullet l := by
  cases l with
  | nil => simp [subBullet, stripLeadBullet]
  | cons c cs =>
    simp only [subBullet, stripLeadBullet, Bool.true_and]
    have hncs : '\n' ∉ cs := fun hm => hn (List.mem_cons_of_mem _ hm)
    by_cases hg : (bulletChars.contains c && cs.head?.any isPySpace) = true
    · rw [if_pos hg, if_pos hg]
      rw [getLast_take_not_newline cs (wsRunLen cs) hncs]
      exact subBullet_false_id _
        (fun hm => hncs (List.drop_subset _ _ hm))
    · rw [if_neg hg, if_neg hg]
      have hc : (c == '\n') = false := by
        simp only [beq_eq_false_iff_ne, ne_eq]
        intro hh
        exact hn (hh ▸ List.mem_cons_self _ _)
      rw [hc]
      rw [subBullet_false_id cs hncs]

theorem subNum_true_eq_stripLeadNum (l : List Char) (hn : '\n' ∉ l) :
    subNum true l = stripLeadNum l := by
  cases l with
  | nil => simp [subNum, stripLeadNum]
  | cons c cs =>
    simp only [subNum, stripLeadNum, Bool.true_and]
    have hncs : '\n' ∉ cs := fun hm => hn (List.mem_cons_of_mem _ hm)
    have hc : (c == '\n') = false := by
      simp only [beq_eq_false_iff_ne, ne_eq]
      intro hh
      exact hn (hh ▸ List.mem_cons_self _ _)
    by_cases hdig : c.isDigit = true
    · rw [if_pos hdig, if_pos hdig]
      by_cases hg : (((cs.drop (digitRunLen cs)).head?.any (fun x => x == '.')) &&
          ((cs.drop (digitRunLen cs + 1)).head?.any isPySpace)) = true
      · rw [if_pos hg, if_pos hg]
        rw [getLast_take_not_newline _ _
          (fun hm => hncs (List.drop_subset _ _ hm))]
        exact subNum_false_id _ (fun hm => hncs (List.drop_subset _ _ hm))
      · rw [if_neg hg, if_neg hg]
        rw [subNum_false_id cs hncs]
    · rw [if_neg hdig, if_neg hdig, hc]
      rw [subNum_false_id cs hncs]

/-- Claim C3, counterexample: in `"- Alpha beta.\n- Gamma delta."` only the
marker of the first line is stripped — the second line's `"- "` survives in
the output because the whitespace collapse has already replaced the newline
with a space — and a real `•` marker is never stripped at all (the source
regex class is mojibake and does not contain `•`). -/
theorem C3_counterexample :
    postprocess_summary "- Alpha beta.\n- Gamma delta." 5
      = "Alpha beta. - Gamma delta." ∧
    postprocess_summary "• Alpha beta." 5 = "• Alpha beta." := by
  constructor <;>
    (simp [postprocess_summary, pyStrip, collapseWs, isPySpace, stripDelims,
       findPat, subNum, subBullet, splitRaw, ssAux, wsRunLen, digitRunLen,
       joinWords, bulletChars, isSentEnd, isUpperAscii]
     decide)

/-- Claim C3, amended: the whitespace collapse runs before the list-marker
substitutions, so by then the summary is a single line (no newline remains
after collapsing, and the markdown stages introduce none); on a
newline-free string the MULTILINE `^` anchors only match at position 0, so
only a leading marker of the whole collapsed summary (one of `- â € ¢ *` —
the mojibake class, which does not contain `•` — or a digit run followed by
a dot) and its trailing whitespace are stripped; markers that started later
lines of the original input survive as interior text. -/
theorem C3_markers_stripped_only_at_start (summary : String) :
    ('\n' ∉ stripDelims ['\x60'] (stripDelims ['*'] (stripDelims ['*', '*']
        (pyStrip (collapseWs summary.data))))) ∧
    (∀ l : List Char, '\n' ∉ l →
      subBullet true l = stripLeadBullet l ∧
      subNum true l = stripLeadNum l) := by
  constructor
  · intro h
    exact newline_not_mem_collapseWs summary.data
      (mem_pyStrip _ _ (mem_stripDelims _ _ _ (mem_stripDelims _ _ _
        (mem_stripDelims _ _ _ h))))
  · intro l hn
    exact ⟨subBullet_true_eq_stripLeadBullet l hn,
           subNum_true_eq_stripLeadNum l hn⟩

/-- Claim C3, amended, witness: on the collapsed single-line form of the
counterexample input only the leading marker is stripped. -/
theorem C3_markers_stripped_only_at_start_witness :
    subBullet true ("- Alpha beta. - Gamma delta.".data)
      = stripLeadBullet ("- Alpha beta. - Gamma delta.".data) ∧
    subNum true ("2. Alpha beta. - Gamma delta.".data)
      = stripLeadNum ("2. Alpha beta. - Gamma delta.".data) :=
  ⟨((C3_markers_stripped_only_at_start "x").2 _ (by decide)).1,
   ((C3_markers_stripped_only_at_start "x").2 _ (by decide)).2⟩

/-- Claim C6, witness: the properties applied at concrete inputs. -/
theorem C6_normalize_properties_witness :
    isUpperAscii 'h' = false ∧ preprocess_text "" false = "" := by
  have heval : preprocess_text "Hi" false = "hi" := by
    simp [preprocess_text, removeTags, findPat, removeUrls, matchUrlAt,
      removeEmails, removeEmailsAux, hasInternalAt, collapseWs, keepChar,
      isWordChar, isPySpace, lowerStr, toLowerAscii, stopwordStage, pyStrip,
      Char.ofNatAux]
    decide
  refine ⟨?_, (C6_normalize_properties "" false).2.2.2⟩
  exact (C6_normalize_properties "Hi" false).2.2.1 'h'
    (by rw [heval]; exact List.Mem.head _)

theorem upper_not_pySpace (c : Char) (h : isUpperAscii c = true) :
    isPySpace c = false := by
  cases hc : isPySpace c
  · rfl
  · exfalso
    simp only [isPySpace, Bool.or_eq_true, beq_iff_eq] at hc
    rcases hc with ((((hc | hc) | hc) | hc) | hc) | hc <;> subst hc <;>
      revert h <;> decide

theorem dropWhile_eq_drop_wsRunLen :
    ∀ l : List Char, l.dropWhile isPySpace = l.drop (wsRunLen l) := by
  intro l
  induction l with
  | nil => rfl
  | cons c cs ih =>
    by_cases h : isPySpace c = true
    · rw [List.dropWhile_cons_of_pos h]
      simp only [wsRunLen, h, if_pos]
      rw [ih]
      rfl
    · rw [List.dropWhile_cons_of_neg (by simp [h])]
      simp only [wsRunLen, h, Bool.false_eq_true, if_neg, not_false_iff,
        List.drop_zero]

theorem wsRunLen_take_ws :
    ∀ l : List Char, ∀ c ∈ l.take (wsRunLen l), isPySpace c = true := by
  intro l
  induction l with
  | nil => intro c h; simp at h
  | cons x xs ih =>
    intro c h
    by_cases hx : isPySpace x = true
    · simp only [wsRunLen, hx, if_pos, List.take_succ_cons] at h
      rcases List.mem_cons.mp h with h | h
      · exact h ▸ hx
      · exact ih c h
    · simp only [wsRunLen, hx, Bool.false_eq_true, if_neg, not_false_iff,
        List.take_zero] at h
      cases h

theorem ssAux_guard_eq (fragRev : List Char) (c : Char) (cs : List Char) :
    (isPySpace c && fragRev.head?.any isSentEnd &&
      ((cs.drop (wsRunLen cs)).head?.any isUpperAscii))
    = boundarySplit fragRev.reverse (c :: cs) := by
  unfold boundarySplit
  rw [List.getLast?_eq_head?_reverse, List.reverse_reverse]
  rw [List.head?_cons]
  rw [List.dropWhile_cons]
  by_cases hc : isPySpace c = true
  · rw [if_pos hc, hc, dropWhile_eq_drop_wsRunLen]
    simp only [Option.any_some, hc]
    cases fragRev.head?.any isSentEnd <;>
      cases (cs.drop (wsRunLen cs)).head?.any isUpperAscii <;> rfl
  · simp [hc]

theorem boundarySplit_append (a b m : List Char)
    (h : boundarySplit a b = true) : boundarySplit a (b ++ m) = true := by
  unfold boundarySplit at h ⊢
  simp only [Bool.and_eq_true] at h
  obtain ⟨⟨h1, h2⟩, h3⟩ := h
  have hdw : (b.dropWhile isPySpace) ≠ [] := by
    intro hh
    rw [hh] at h3
    cases h3
  rw [List.dropWhile_append, if_neg (by simpa using hdw)]
  cases hb : b.head? with
  | none => rw [hb] at h2; cases h2
  | some x =>
    rw [hb] at h2
    simp only [Option.any_some] at h2
    cases hdwl : b.dropWhile isPySpace with
    | nil => exact absurd hdwl hdw
    | cons y ys =>
      rw [hdwl] at h3
      simp only [List.head?_cons, Option.any_some] at h3
      simp [List.head?_append, hb, h1, h2, h3]

theorem hasBoundary_split (f : List Char) (h : hasBoundary f) :
    ∃ a b, a ++ b = f ∧ a.length < f.length ∧ boundarySplit a b = true := by
  rcases h with ⟨a, p, ws, b, hf, hp, hwsne, hws, u, b2, hb, hu⟩
  refine ⟨a ++ [p], ws ++ b, ?_, ?_, ?_⟩
  · rw [hf]
    simp
  · rw [hf]
    cases ws with
    | nil => exact absurd rfl hwsne
    | cons w ws2 =>
      simp only [List.length_append, List.length_cons, List.length_nil]
      omega
  · unfold boundarySplit
    rw [List.getLast?_concat]
    simp only [Option.any_some, hp, Bool.true_and]
    cases ws with
    | nil => exact absurd rfl hwsne
    | cons w ws2 =>
      have hall : ∀ x ∈ w :: ws2, isPySpace x = true := hws
      simp only [List.cons_append, List.head?_cons, Option.any_some]
      rw [hws w (List.mem_cons_self _ _), Bool.true_and]
      rw [← List.cons_append, List.dropWhile_append_of_pos hall, hb]
      rw [List.dropWhile_cons_of_neg (by simp [upper_not_pySpace u hu])]
      simp [hu]

theorem not_hasBoundary_prefix (f rest : List Char)
    (hinv : ∀ a b, a ++ b = f ++ rest → a.length < f.length →
      boundarySplit a b = false) :
    ¬ hasBoundary f := by
  intro hb
  rcases hasBoundary_split f hb with ⟨a, b, hab, hlt, hbs⟩
  have hext : boundarySplit a (b ++ rest) = true := boundarySplit_append a b rest hbs
  have : boundarySplit a (b ++ rest) = false := by
    apply hinv
    · rw [← List.append_assoc, hab]
    · omega
  rw [this] at hext
  cases hext

theorem ssAux_ne_nil :
    ∀ (n : Nat) (rest fragRev : List Char), rest.length ≤ n →
      ssAux fragRev rest ≠ [] := by
  intro n
  induction n with
  | zero =>
    intro rest fragRev hlen
    cases rest with
    | nil => simp [ssAux]
    | cons c cs => simp at hlen
  | succ n ih =>
    intro rest fragRev hlen
    cases rest with
    | nil => simp [ssAux]
    | cons c cs =>
      simp only [ssAux]
      split_ifs with hg
      · simp
      · exact ih cs (c :: fragRev) (by simp at hlen; omega)

theorem ssAux_splits :
    ∀ (n : Nat) (rest fragRev : List Char), rest.length ≤ n →
      (∀ a b, a ++ b = fragRev.reverse ++ rest → a.length < fragRev.length →
        boundarySplit a b = false) →
      SplitsIntoFrags (fragRev.reverse ++ rest) (ssAux fragRev rest) := by
  intro n
  induction n with
  | zero =>
    intro rest fragRev hlen hinv
    cases rest with
    | nil =>
      simp only [ssAux, List.append_nil]
      refine ⟨rfl, ?_⟩
      apply not_hasBoundary_prefix _ []
      intro a b hab halt
      exact hinv a b (by simpa using hab) (by simpa using halt)
    | cons c cs => simp at hlen
  | succ n ih =>
    intro rest fragRev hlen hinv
    cases rest with
    | nil =>
      simp only [ssAux, List.append_nil]
      refine ⟨rfl, ?_⟩
      apply not_hasBoundary_prefix _ []
      intro a b hab halt
      exact hinv a b (by simpa using hab) (by simpa using halt)
    | cons c cs =>
      have hcs : cs.length ≤ n := by simp at hlen; omega
      simp only [ssAux]
      by_cases hg : (isPySpace c && fragRev.head?.any isSentEnd &&
          ((cs.drop (wsRunLen cs)).head?.any isUpperAscii)) = true
      · rw [if_pos hg]
        simp only [Bool.and_eq_true] at hg
        obtain ⟨⟨hgc, hgp⟩, hgu⟩ := hg
        have hlen2 : (cs.drop (wsRunLen cs)).length ≤ n := by
          simp [List.length_drop]
          omega
        have hrec := ih (cs.drop (wsRunLen cs)) [] hlen2 (by
          intro a b hab halt
          simp at halt)
        simp only [List.reverse_nil, List.nil_append] at hrec
        cases hres : ssAux [] (cs.drop (wsRunLen cs)) with
        | nil => exact absurd hres (ssAux_ne_nil n _ [] hlen2)
        | cons g gs =>
          rw [hres] at hrec
          show SplitsIntoFrags (fragRev.reverse ++ c :: cs)
            (fragRev.reverse :: g :: gs)
          refine ⟨?_, c :: cs.take (wsRunLen cs), cs.drop (wsRunLen cs),
            ?_, ?_, ?_, ?_, ?_, ?_⟩
          · apply not_hasBoundary_prefix _ (c :: cs)
            intro a b hab halt
            exact hinv a b hab (by simpa using halt)
          · rw [List.append_assoc, List.cons_append, List.take_append_drop]
          · simp
          · intro x hx
            rcases List.mem_cons.mp hx with h | h
            · exact h ▸ hgc
            · exact wsRunLen_take_ws cs x h
          · cases hfr : fragRev with
            | nil => rw [hfr] at hgp; cases hgp
            | cons p fr =>
              rw [hfr] at hgp
              simp only [List.head?_cons, Option.any_some] at hgp
              exact ⟨fr.reverse, p, by simp, hgp⟩
          · cases ht2 : (cs.drop (wsRunLen cs)).head? with
            | none => rw [ht2] at hgu; cases hgu
            | some u =>
              rw [ht2] at hgu
              simp only [Option.any_some] at hgu
              rcases List.head?_eq_some_iff.mp ht2 with ⟨r2, hr2⟩
              exact ⟨u, r2, hr2, hgu⟩
          · exact hrec
      · rw [if_neg hg]
        rw [Bool.not_eq_true] at hg
        have hbsf : boundarySplit fragRev.reverse (c :: cs) = false := by
          rw [← ssAux_guard_eq]
          exact hg
        have hinv2 : ∀ a b, a ++ b = (c :: fragRev).reverse ++ cs →
            a.length < (c :: fragRev).length → boundarySplit a b = false := by
          intro a b hab halt
          have hab2 : a ++ b = fragRev.reverse ++ (c :: cs) := by
            rw [hab]
            simp
          simp only [List.length_cons] at halt
          by_cases hcase : a.length < fragRev.length
          · exact hinv a b hab2 hcase
          · have heq : a.length = fragRev.reverse.length := by
              simp only [List.length_reverse]
              omega
            obtain ⟨ha, hb⟩ := List.append_inj hab2 heq
            rw [ha, hb]
            exact hbsf
        have hres := ih cs (c :: fragRev) hcs hinv2
        have hstr : (c :: fragRev).reverse ++ cs = fragRev.reverse ++ c :: cs := by
          simp
        rw [hstr] at hres
        exact hres

/-- The regex split relation holds of `splitRaw`. -/
theorem splitRaw_spec (t : List Char) : SplitsIntoFrags t (splitRaw t) := by
  have h := ssAux_splits t.length t [] (Nat.le_refl _) (by
    intro a b hab halt
    simp at halt)
  simpa [splitRaw] using h

theorem head_dropWhile_any_false (p : Char → Bool) :
    ∀ l : List Char, ((l.dropWhile p).head?.any p) = false := by
  intro l
  induction l with
  | nil => rfl
  | cons x xs ih =>
    by_cases hx : p x = true
    · rw [List.dropWhile_cons_of_pos hx]
      exact ih
    · rw [List.dropWhile_cons_of_neg (by simp [hx])]
      simp [hx]

theorem dropWhile_eq_self_of_head (p : Char → Bool) (l : List Char)
    (h : (l.head?.any p) = false) : l.dropWhile p = l := by
  cases l with
  | nil => rfl
  | cons x xs =>
    simp only [List.head?_cons, Option.any_some] at h
    rw [List.dropWhile_cons_of_neg (by simp [h])]

theorem getLast?_dropWhile_of_ne_nil (p : Char → Bool) (l : List Char)
    (h : l.dropWhile p ≠ []) : (l.dropWhile p).getLast? = l.getLast? := by
  conv_rhs => rw [← List.takeWhile_append_dropWhile (p := p) (l := l)]
  rw [List.getLast?_append]
  cases hl : (l.dropWhile p).getLast? with
  | none =>
    rw [List.getLast?_eq_none_iff] at hl
    exact absurd hl h
  | some a => rfl

theorem pyStrip_head_any_false (l : List Char) :
    ((pyStrip l).head?.any isPySpace) = false := by
  unfold pyStrip
  by_cases hBe : (l.dropWhile isPySpace).reverse.dropWhile isPySpace = []
  · rw [hBe]
    rfl
  · rw [← List.getLast?_eq_head?_reverse]
    rw [getLast?_dropWhile_of_ne_nil isPySpace _ hBe]
    rw [List.getLast?_eq_head?_reverse, List.reverse_reverse]
    exact head_dropWhile_any_false isPySpace l

theorem pyStrip_getLast_any_false (l : List Char) :
    ((pyStrip l).getLast?.any isPySpace) = false := by
  unfold pyStrip
  rw [List.getLast?_eq_head?_reverse, List.reverse_reverse]
  exact head_dropWhile_any_false isPySpace _

theorem pyStrip_idem (l : List Char) : pyStrip (pyStrip l) = pyStrip l := by
  have h1 : (pyStrip l).dropWhile isPySpace = pyStrip l :=
    dropWhile_eq_self_of_head _ _ (pyStrip_head_any_false l)
  show (((pyStrip l).dropWhile isPySpace).reverse.dropWhile isPySpace).reverse
    = pyStrip l
  rw [h1]
  have h2 : (pyStrip l).reverse.dropWhile isPySpace = (pyStrip l).reverse := by
    apply dropWhile_eq_self_of_head
    rw [← List.getLast?_eq_head?_reverse]
    exact pyStrip_getLast_any_false l
  rw [h2, List.reverse_reverse]

/-- Claim C7: `split_sentences` splits exactly at the regex boundaries —
punctuation, then a consumed nonempty whitespace run, then an unconsumed
uppercase letter — in order (the `SplitsIntoFrags` relation states the
fragments reassemble to the input around such separators and contain no
boundary themselves); the returned fragments are the raw fragments
stripped, with every fragment of trimmed length below 6 discarded, so each
returned fragment is nonempty, already trimmed, and at least 6 characters
long after trimming. -/
theorem C7_split_boundaries (text : String) :
    SplitsIntoFrags text.data (splitRaw text.data) ∧
    split_sentences text
      = (((splitRaw text.data).map pyStrip).filter
          (fun s => 5 < s.length)).map String.mk ∧
    ∀ s ∈ split_sentences text,
      6 ≤ s.length ∧ pyStrip s.data = s.data := by
  refine ⟨splitRaw_spec _, rfl, ?_⟩
  intro s hs
  rcases List.mem_map.mp hs with ⟨l, hl, rfl⟩
  have hfil := List.mem_filter.mp hl
  rcases List.mem_map.mp hfil.1 with ⟨raw, _, hraw⟩
  have hlen : 5 < l.length := by
    have := hfil.2
    simpa using this
  constructor
  · exact hlen
  · rw [← hraw]
    exact pyStrip_idem raw

/-- Claim C7, witness: the spec's own example yields exactly two fragments,
each trimmed and at least 6 characters. -/
theorem C7_split_boundaries_witness :
    SplitsIntoFrags ("Hello world. This Is Two." : String).data
      (splitRaw ("Hello world. This Is Two." : String).data) ∧
    split_sentences "Hello world. This Is Two."
      = ["Hello world.", "This Is Two."] ∧
    6 ≤ ("Hello world." : String).length ∧
    pyStrip ("Hello world." : String).data = ("Hello world." : String).data := by
  have heval : split_sentences "Hello world. This Is Two."
      = ["Hello world.", "This Is Two."] := by
    simp [split_sentences, splitRaw, ssAux, wsRunLen, isPySpace, isSentEnd,
      isUpperAscii, pyStrip]
  refine ⟨(C7_split_boundaries "Hello world. This Is Two.").1, heval, ?_, ?_⟩
  · exact ((C7_split_boundaries "Hello world. This Is Two.").2.2
      "Hello world." (by rw [heval]; exact List.Mem.head _)).1
  · exact ((C7_split_boundaries "Hello world. This Is Two.").2.2
      "Hello world." (by rw [heval]; exact List.Mem.head _)).2

end ScrapArticles
